import Mathlib

/-!
Shallow embedding of `contributors.py` from `bradleyfrank/gh-repo-contributor-count`.

The script counts unique contributors across GitHub repositories:

* `since_datetime days` — `datetime.today() - timedelta(days=days)`, round-tripped
  through `isoformat`/`fromisoformat`;
* `find_recent_contributors repository since` — iterates over the commits of a
  repository and builds a Python `dict` from author email to lowercased author
  name, probing `commits.totalCount` first (a `GithubException` there is caught
  and yields an empty dict);
* `main org repos debug` — splits the `repos` option on commas, looks each
  repository up via the GitHub client (lookup failures are logged and skipped),
  accumulates per-repository counts and a merged contributor dict, and prints a
  JSON report when at least one repository was processed.

Python `dict`s are modelled as association lists with unique keys in insertion
order; `d[k] = v` replaces the value at an existing key in place and otherwise
appends, `d.items()` is the list of pairs, `d.update(m)` assigns every pair of
`m` in order, `len` is the list length, and `sorted(d.items())` sorts the pairs
(by key first; keys are unique in every dict this program builds, so the value
component is never compared).  Exceptions are modelled with `Except`: the
network-facing operations (`totalCount` probe, repository lookup, per-commit
author extraction) carry their possible failures explicitly.
-/

/-- A Python `dict` with `String` keys: an association list in insertion order,
with at most one entry per key. -/
abbrev Dict (α : Type) := List (String × α)

/-- Keys of a dict, in insertion order (`d.keys()`). -/
def dictKeys {α : Type} (d : Dict α) : List String :=
  d.map Prod.fst

/-- Python `d[k] = v`: replace the value at an existing key in place, otherwise
append the new entry at the end.  (On the dicts built by this program the key
occurs at most once, so replacing the first occurrence is the Python
behaviour.) -/
def dictInsert {α : Type} : Dict α → String → α → Dict α
  | [], k, v => [(k, v)]
  | p :: ps, k, v => if p.1 = k then (k, v) :: ps else p :: dictInsert ps k v

/-- Python `d.get(k)` / `d[k]`: the value at the first entry with key `k`. -/
def dictGet {α : Type} : Dict α → String → Option α
  | [], _ => none
  | p :: ps, k => if p.1 = k then some p.2 else dictGet ps k

/-- Python `d.update(m)`: assign every `(k, v)` pair of `m`, in order. -/
def dictUpdate {α : Type} (d m : Dict α) : Dict α :=
  m.foldl (fun acc p => dictInsert acc p.1 p.2) d

/-- Python `"".join`-free model of `str.lower()` (ASCII case folding, which is
what `Char.toLower` implements and what the examples exercise). -/
def lowerString (s : String) : String :=
  ⟨s.data.map Char.toLower⟩

/-- Python `s.split(sep)` for a one-character separator: splits at every
occurrence, keeping empty fields (`"".split(",") == [""]`). -/
def pySplitAux (sep : Char) : List Char → List Char → List String
  | [], cur => [⟨cur.reverse⟩]
  | c :: cs, cur =>
    if c = sep then ⟨cur.reverse⟩ :: pySplitAux sep cs []
    else pySplitAux sep cs (c :: cur)

/-- Python `repos.split(",")`. -/
def pySplit (s : String) (sep : Char) : List String :=
  pySplitAux sep s.data []

/-! ## Time-window calculator (`since_datetime`) -/

/-- Exact number of microseconds in `timedelta(days=1)`. -/
def microsecondsPerDay : Int := 86400000000

/-- Python `datetime.isoformat()` on a timezone-naive microsecond-precision
datetime, viewed at the value level: the textual round-trip loses nothing, so it
is the identity on the instant. -/
def datetime_isoformat (t : Int) : Int := t

/-- Python `datetime.fromisoformat` of an `isoformat` string: inverse of the
serialization, again the identity on the instant. -/
def datetime_fromisoformat (t : Int) : Int := t

/-- Lines 23–27: `datetime.today() - timedelta(days=days)` round-tripped through
`isoformat`/`fromisoformat`.  Timezone-naive datetimes are modelled as integer
microsecond timestamps; `now` is the value `datetime.today()` produced at the
call. -/
def since_datetime (now : Int) (days : Int) : Int :=
  datetime_fromisoformat (datetime_isoformat (now - days * microsecondsPerDay))

/-! ## Contributor collector (`find_recent_contributors`) -/

/-- The exception raised by the GitHub client on empty/inaccessible repositories
and failed lookups (`github.GithubException`). -/
inductive GithubException where
  | mk : GithubException
deriving DecidableEq

/-- An exception escaping the per-commit loop: extracting
`commit.commit.author.name` can raise `AttributeError` (author is `None`) and
paging through commits can raise a `GithubException`; neither is caught there. -/
inductive PyError where
  | attributeError : PyError
  | githubException : PyError
deriving DecidableEq

deriving instance DecidableEq for Except

/-- Authorship metadata of one commit: `commit.commit.author.name` and
`commit.commit.author.email`. -/
structure Commit where
  name : String
  email : String
deriving DecidableEq

/-- The contributor mapping built by the collector: author email → lowercased
author name. -/
abbrev AuthorMap := Dict String

/-- A repository handle as the collector sees it: the outcome of the
`commits.totalCount` probe, and the commit listing where each element either
yields its author metadata or raises while it is extracted. -/
structure RepoHandle where
  probe : Except GithubException Unit
  commits : List (Except PyError Commit)

/-- Lines 45–51, body of the `for commit in commits` loop: lowercase the author
name, take the email as-is, and assign `authors[author_email] = author_name`
unless the exact `(email, name)` pair is already an entry of `authors.items()`
(in which case only a warning is logged). -/
def processCommit (authors : AuthorMap) (commit : Commit) : AuthorMap :=
  let author_name := lowerString commit.name
  let author_email := commit.email
  if (author_email, author_name) ∉ authors then
    dictInsert authors author_email author_name
  else
    authors

/-- Lines 44–52, the loop itself: commits are consumed in order; an exception
raised while extracting a commit's author aborts the loop (nothing catches
it). -/
def commitLoop : List (Except PyError Commit) → AuthorMap → Except PyError AuthorMap
  | [], authors => Except.ok authors
  | Except.error e :: _, _ => Except.error e
  | Except.ok commit :: rest, authors => commitLoop rest (processCommit authors commit)

/-- Lines 30–52, `find_recent_contributors`: start from `authors = {}`; if the
`totalCount` probe raises a `GithubException`, log a warning and return the
(empty) mapping; otherwise run the per-commit loop. -/
def find_recent_contributors (repository : RepoHandle) : Except PyError AuthorMap :=
  match repository.probe with
  | Except.error _ => Except.ok []
  | Except.ok _ => commitLoop repository.commits []

/-- The pure value of the commit loop on a listing where every author extraction
succeeds (the `foldl` of the loop body). -/
def collectAuthors (cs : List Commit) : AuthorMap :=
  cs.foldl processCommit []

/-- Lowercased name of the last commit in `cs` whose email is `e`. -/
def lastNameFor (cs : List Commit) (e : String) : Option String :=
  ((cs.filter (fun c => c.email == e)).getLast?).map (fun c => lowerString c.name)

/-! ## Orchestrator (`main`) -/

/-- Default organization (`ORG_NAME`). -/
def ORG_NAME : String := "bradleyfrank"

/-- The GitHub client as `main` uses it: `github.get_repo(f"{org}/{repo}")`
either raises a `GithubException` or yields a repository handle. -/
def GithubOracle : Type := String → Except GithubException RepoHandle

/-- The JSON report printed by `main` (`repo_stats` at line 98). -/
structure Report where
  repositories : Dict Nat
  contributors : Dict String
  num_unique_contributors : Nat
deriving DecidableEq

/-- Observable outcome of a completed run of `main`: the optional JSON report on
stdout, and the process exit status.  `sys.exit()` with no argument raises
`SystemExit(None)`, which terminates the interpreter with status `0`; a normal
return from `main` also exits with status `0`. -/
structure RunResult where
  output : Option Report
  exitCode : Nat
deriving DecidableEq

/-- Python `<` on strings restricted to their character lists: code-point
lexicographic comparison. -/
def pyStrLtAux : List Char → List Char → Bool
  | [], [] => false
  | [], _ :: _ => true
  | _ :: _, [] => false
  | a :: as, b :: bs =>
    if a.toNat < b.toNat then true
    else if b.toNat < a.toNat then false
    else pyStrLtAux as bs

/-- Python `<` on strings: code-point lexicographic comparison (the order used
by `sorted`). -/
def pyStrLt (a b : String) : Bool :=
  pyStrLtAux a.data b.data

/-- Python `sorted(all_contributors.items())`, as insertion sort on the pairs.
Comparison is on the email key; every dict this program sorts has unique keys,
so Python's tuple comparison never reaches the value component. -/
def insertPair (p : String × String) : Dict String → Dict String
  | [] => [p]
  | q :: qs => if pyStrLt q.1 p.1 then q :: insertPair p qs else p :: q :: qs

/-- Python `dict(sorted(d.items()))`. -/
def sortDict (d : Dict String) : Dict String :=
  d.foldr insertPair []

/-- Lines 96–97: the final report assembled from the per-repository counts and
the merged contributor dict. -/
def reportOf (acc : Dict Nat × AuthorMap) : Report :=
  { repositories := acc.1
    contributors := sortDict acc.2
    num_unique_contributors := (sortDict acc.2).length }

/-- Lines 84–93, the `for repo in repos.split(",")` loop: a failed lookup is
logged and skipped (`continue`); otherwise the collector runs, the repository's
count is recorded, and the merged dict is updated.  An exception escaping the
collector propagates out of the loop. -/
def repoLoop (github : GithubOracle) (org : String) :
    List String → Dict Nat → AuthorMap → Except PyError (Dict Nat × AuthorMap)
  | [], repo_counts, all_contributors => Except.ok (repo_counts, all_contributors)
  | repo :: rest, repo_counts, all_contributors =>
    match github (org ++ "/" ++ repo) with
    | Except.error _ => repoLoop github org rest repo_counts all_contributors
    | Except.ok handle =>
      match find_recent_contributors handle with
      | Except.error e => Except.error e
      | Except.ok contributors =>
        repoLoop github org rest
          (dictInsert repo_counts repo contributors.length)
          (dictUpdate all_contributors contributors)

namespace Contributors

/-- Lines 59–98, `main`: with no `--repos` option, log an error and `sys.exit()`
(no output, exit status `0`); otherwise process each named repository and print
the JSON report exactly when `repo_stats["repositories"]` is non-empty.  An
uncaught exception from the loop surfaces as `Except.error` (interpreter
abort). -/
def main (github : GithubOracle) (org : String) (repos : Option String) :
    Except PyError RunResult :=
  match repos with
  | none => Except.ok { output := none, exitCode := 0 }
  | some repoList =>
    match repoLoop github org (pySplit repoList ',') [] [] with
    | Except.error e => Except.error e
    | Except.ok (repo_counts, all_contributors) =>
      if repo_counts.isEmpty then
        Except.ok { output := none, exitCode := 0 }
      else
        Except.ok { output := some (reportOf (repo_counts, all_contributors)), exitCode := 0 }

end Contributors

/-- One step of the aggregation that lines 92–93 perform for a successfully
processed repository: record its contributor count and merge its mapping into
the global dict. -/
def aggStep (acc : Dict Nat × AuthorMap) (p : String × AuthorMap) :
    Dict Nat × AuthorMap :=
  (dictInsert acc.1 p.1 p.2.length, dictUpdate acc.2 p.2)

/-- The aggregation of `main` over a sequence of per-repository contributor
mappings, in processing order. -/
def aggregate (ps : List (String × AuthorMap)) : Dict Nat × AuthorMap :=
  ps.foldl aggStep ([], [])

/-- The per-repository mappings that a run of `main`'s loop actually aggregates:
one `(repo, mapping)` pair for every repository whose lookup and collection both
succeed, in processing order. -/
def successResults (github : GithubOracle) (org : String) (rs : List String) :
    List (String × AuthorMap) :=
  rs.filterMap fun r =>
    match github (org ++ "/" ++ r) with
    | Except.error _ => none
    | Except.ok h =>
      match find_recent_contributors h with
      | Except.error _ => none
      | Except.ok m => some (r, m)

/-- Demonstration repository `r1` with a single commit by Bob. -/
def demoHandle1 : RepoHandle :=
  { probe := Except.ok ()
    commits := [Except.ok { name := "Bob", email := "a@x.com" }] }

/-- Demonstration repository `r2` with commits by Bob and Carol. -/
def demoHandle2 : RepoHandle :=
  { probe := Except.ok ()
    commits := [Except.ok { name := "Bob", email := "a@x.com" },
                Except.ok { name := "Carol", email := "c@y.com" }] }

/-- Demonstration GitHub client knowing `bradleyfrank/r1` and `bradleyfrank/r2`. -/
def demoOracle : GithubOracle := fun s =>
  if s = "bradleyfrank/r1" then Except.ok demoHandle1
  else if s = "bradleyfrank/r2" then Except.ok demoHandle2
  else Except.error GithubException.mk

example : pySplit "r1,r2" ',' = ["r1", "r2"] := by decide
example : pySplit "" ',' = [""] := by decide
example : lowerString "Bob" = "bob" := by decide
example : collectAuthors [{ name := "Bob", email := "a@x.com" },
    { name := "Alice", email := "a@x.com" }] = [("a@x.com", "alice")] := by decide
example :
    Contributors.main demoOracle "bradleyfrank" (some "r1,r2") =
      Except.ok ⟨some ⟨[("r1", 1), ("r2", 2)],
        [("a@x.com", "bob"), ("c@y.com", "carol")], 2⟩, 0⟩ := rfl

/-! ## Dictionary lemmas -/

theorem dictInsert_ne_nil {α : Type} (d : Dict α) (k : String) (v : α) :
    dictInsert d k v ≠ [] := by
  cases d with
  | nil => simp [dictInsert]
  | cons p ps =>
    simp only [dictInsert]
    split <;> simp

theorem mem_dictKeys_dictInsert {α : Type} (d : Dict α) (k : String) (v : α) (x : String) :
    x ∈ dictKeys (dictInsert d k v) ↔ x ∈ dictKeys d ∨ x = k := by
  induction d with
  | nil => simp [dictInsert, dictKeys]
  | cons p ps ih =>
    by_cases h : p.1 = k
    · simp only [dictInsert, if_pos h, dictKeys, List.map_cons, List.mem_cons]
      subst h
      tauto
    · simp only [dictInsert, if_neg h, dictKeys, List.map_cons, List.mem_cons]
      rw [dictKeys] at ih
      tauto

theorem nodup_dictKeys_dictInsert {α : Type} (d : Dict α) (k : String) (v : α)
    (h : (dictKeys d).Nodup) : (dictKeys (dictInsert d k v)).Nodup := by
  induction d with
  | nil => simp [dictInsert, dictKeys]
  | cons p ps ih =>
    simp only [dictKeys, List.map_cons, List.nodup_cons] at h
    by_cases hk : p.1 = k
    · simp only [dictInsert, if_pos hk, dictKeys, List.map_cons, List.nodup_cons]
      exact ⟨hk ▸ h.1, h.2⟩
    · simp only [dictInsert, if_neg hk, dictKeys, List.map_cons, List.nodup_cons]
      refine ⟨?_, ih h.2⟩
      rw [show (dictInsert ps k v).map Prod.fst = dictKeys (dictInsert ps k v) from rfl,
        mem_dictKeys_dictInsert]
      rintro (hmem | hmem)
      · exact h.1 hmem
      · exact hk hmem

theorem length_dictInsert {α : Type} (d : Dict α) (k : String) (v : α) :
    (dictInsert d k v).length = if k ∈ dictKeys d then d.length else d.length + 1 := by
  induction d with
  | nil => simp [dictInsert, dictKeys]
  | cons p ps ih =>
    by_cases h : p.1 = k
    · simp [dictInsert, if_pos h, dictKeys, h.symm]
    · have : ¬ k = p.1 := fun hc => h hc.symm
      simp only [dictInsert, if_neg h, List.length_cons, ih, dictKeys, List.map_cons,
        List.mem_cons, this, false_or]
      split <;> simp

theorem dictGet_dictInsert {α : Type} (d : Dict α) (k : String) (v : α) (x : String) :
    dictGet (dictInsert d k v) x = if x = k then some v else dictGet d x := by
  induction d with
  | nil =>
    by_cases h : x = k
    · subst h
      simp [dictInsert, dictGet]
    · have h2 : ¬ k = x := fun hc => h hc.symm
      simp [dictInsert, dictGet, h, h2]
  | cons p ps ih =>
    by_cases h : p.1 = k
    · subst h
      by_cases hx : p.1 = x
      · simp [dictInsert, dictGet, hx]
      · have : ¬ x = p.1 := fun hc => hx hc.symm
        simp [dictInsert, dictGet, hx, this]
    · by_cases hx : p.1 = x
      · have : ¬ x = k := fun hc => h (hx.trans hc)
        simp [dictInsert, dictGet, h, hx, this]
      · simp [dictInsert, dictGet, h, hx, ih]

theorem dictGet_of_mem {α : Type} (d : Dict α) (k : String) (v : α)
    (hnd : (dictKeys d).Nodup) (hmem : (k, v) ∈ d) : dictGet d k = some v := by
  induction d with
  | nil => simp at hmem
  | cons p ps ih =>
    simp only [dictKeys, List.map_cons, List.nodup_cons] at hnd
    rcases List.mem_cons.mp hmem with h | h
    · subst h
      simp [dictGet]
    · have hk : k ∈ dictKeys ps := List.mem_map.mpr ⟨(k, v), h, rfl⟩
      have hne : ¬ p.1 = k := fun hc => hnd.1 (hc ▸ hk)
      simp only [dictGet, if_neg hne]
      exact ih hnd.2 h

theorem dictInsert_of_mem {α : Type} (d : Dict α) (k : String) (v : α)
    (hnd : (dictKeys d).Nodup) (hmem : (k, v) ∈ d) : dictInsert d k v = d := by
  induction d with
  | nil => simp at hmem
  | cons p ps ih =>
    simp only [dictKeys, List.map_cons, List.nodup_cons] at hnd
    rcases List.mem_cons.mp hmem with h | h
    · subst h
      simp [dictInsert]
    · have hk : k ∈ dictKeys ps := List.mem_map.mpr ⟨(k, v), h, rfl⟩
      have hne : ¬ p.1 = k := fun hc => hnd.1 (hc ▸ hk)
      simp only [dictInsert, if_neg hne]
      rw [ih hnd.2 h]

theorem dictInsert_of_not_mem_keys {α : Type} (d : Dict α) (k : String) (v : α)
    (h : k ∉ dictKeys d) : dictInsert d k v = d ++ [(k, v)] := by
  induction d with
  | nil => simp [dictInsert]
  | cons p ps ih =>
    simp only [dictKeys, List.map_cons, List.mem_cons] at h
    push_neg at h
    have : ¬ p.1 = k := fun hc => h.1 hc.symm
    simp only [dictInsert, if_neg this, List.cons_append, List.cons.injEq, true_and]
    exact ih h.2

theorem dictUpdate_nil {α : Type} (d : Dict α) : dictUpdate d [] = d := rfl

theorem dictUpdate_cons {α : Type} (d : Dict α) (p : String × α) (m : Dict α) :
    dictUpdate d (p :: m) = dictUpdate (dictInsert d p.1 p.2) m := rfl

theorem nodup_dictKeys_dictUpdate {α : Type} (d m : Dict α)
    (h : (dictKeys d).Nodup) : (dictKeys (dictUpdate d m)).Nodup := by
  induction m generalizing d with
  | nil => exact h
  | cons p m ih =>
    rw [dictUpdate_cons]
    exact ih _ (nodup_dictKeys_dictInsert d p.1 p.2 h)

theorem mem_dictKeys_dictUpdate {α : Type} (d m : Dict α) (x : String) :
    x ∈ dictKeys (dictUpdate d m) ↔ x ∈ dictKeys d ∨ x ∈ dictKeys m := by
  induction m generalizing d with
  | nil => simp [dictUpdate_nil, dictKeys]
  | cons p m ih =>
    rw [dictUpdate_cons, ih, mem_dictKeys_dictInsert]
    simp only [dictKeys, List.map_cons, List.mem_cons]
    tauto

theorem length_dictUpdate_le {α : Type} (d m : Dict α) :
    (dictUpdate d m).length ≤ d.length + m.length := by
  induction m generalizing d with
  | nil => simp [dictUpdate_nil]
  | cons p m ih =>
    rw [dictUpdate_cons]
    refine le_trans (ih _) ?_
    rw [length_dictInsert]
    split <;> (simp only [List.length_cons]; omega)

theorem length_dictUpdate_eq_iff {α : Type} (d m : Dict α)
    (hm : (dictKeys m).Nodup) :
    (dictUpdate d m).length = d.length + m.length ↔
      ∀ x ∈ dictKeys m, x ∉ dictKeys d := by
  induction m generalizing d with
  | nil => simp [dictUpdate_nil, dictKeys]
  | cons p m ih =>
    simp only [dictKeys, List.map_cons, List.nodup_cons] at hm
    rw [dictUpdate_cons]
    by_cases hp : p.1 ∈ dictKeys d
    · have hlt : (dictUpdate (dictInsert d p.1 p.2) m).length < d.length + (p :: m).length := by
        refine lt_of_le_of_lt (length_dictUpdate_le _ _) ?_
        rw [length_dictInsert, if_pos hp]
        simp only [List.length_cons]
        omega
      constructor
      · intro heq
        exact absurd heq (Nat.ne_of_lt hlt)
      · intro hall
        exact absurd hp (hall p.1 (by simp [dictKeys]))
    · have hlen : (dictInsert d p.1 p.2).length = d.length + 1 := by
        rw [length_dictInsert, if_neg hp]
      have h2 := ih (dictInsert d p.1 p.2) hm.2
      constructor
      · intro heq
        have heq2 : (dictUpdate (dictInsert d p.1 p.2) m).length
            = (dictInsert d p.1 p.2).length + m.length := by
          rw [hlen]
          simp only [List.length_cons] at heq
          omega
        have hall := h2.mp heq2
        intro x hx
        rcases List.mem_cons.mp (show x ∈ p.1 :: dictKeys m from hx) with h | h
        · exact h ▸ hp
        · have hni := hall x h
          rw [mem_dictKeys_dictInsert] at hni
          intro hd
          exact hni (Or.inl hd)
      · intro hall
        have hall2 : ∀ x ∈ dictKeys m, x ∉ dictKeys (dictInsert d p.1 p.2) := by
          intro x hx
          rw [mem_dictKeys_dictInsert]
          rintro (hd | hk)
          · exact hall x (show x ∈ p.1 :: dictKeys m from List.mem_cons_of_mem _ hx) hd
          · exact hm.1 (hk ▸ hx)
        have heq := h2.mpr hall2
        rw [heq, hlen]
        simp only [List.length_cons]
        omega

/-- First-defined alternative on `Option`, used to state how `d.update(m)`
resolves lookups: the updating dict wins when it binds the key. -/
def optOr {α : Type} : Option α → Option α → Option α
  | some v, _ => some v
  | none, b => b

theorem optOr_some {α : Type} (v : α) (b : Option α) : optOr (some v) b = some v := rfl

theorem optOr_none {α : Type} (b : Option α) : optOr none b = b := rfl

theorem optOr_assoc {α : Type} (a b c : Option α) :
    optOr (optOr a b) c = optOr a (optOr b c) := by
  cases a <;> cases b <;> rfl

theorem dictGet_eq_none_of_not_mem_keys {α : Type} (m : Dict α) (x : String)
    (h : x ∉ dictKeys m) : dictGet m x = none := by
  induction m with
  | nil => rfl
  | cons q qs ih =>
    simp only [dictKeys, List.map_cons, List.mem_cons] at h
    push_neg at h
    have hne : ¬ q.1 = x := fun hc => h.1 hc.symm
    simp only [dictGet, if_neg hne]
    exact ih h.2

theorem dictGet_dictUpdate {α : Type} (d m : Dict α) (x : String)
    (hm : (dictKeys m).Nodup) :
    dictGet (dictUpdate d m) x = optOr (dictGet m x) (dictGet d x) := by
  induction m generalizing d with
  | nil => simp [dictUpdate_nil, dictGet, optOr_none]
  | cons p m ih =>
    simp only [dictKeys, List.map_cons, List.nodup_cons] at hm
    rw [dictUpdate_cons, ih _ hm.2, dictGet_dictInsert]
    by_cases hx : x = p.1
    · have hnone : dictGet m x = none :=
        dictGet_eq_none_of_not_mem_keys m x (by rw [hx]; exact hm.1)
      have hp1 : dictGet (p :: m) x = some p.2 := by
        simp [dictGet, hx.symm]
      rw [hnone, hp1, optOr_none, if_pos hx, optOr_some]
    · have hp1 : dictGet (p :: m) x = dictGet m x := by
        have hne : ¬ p.1 = x := fun hc => hx hc.symm
        simp [dictGet, hne]
      rw [hp1, if_neg hx]

/-! ## Collector lemmas -/

theorem collectAuthors_nil : collectAuthors [] = [] := rfl

theorem collectAuthors_snoc (cs : List Commit) (c : Commit) :
    collectAuthors (cs ++ [c]) = processCommit (collectAuthors cs) c := by
  simp [collectAuthors, List.foldl_append]

theorem processCommit_def (m : AuthorMap) (c : Commit) :
    processCommit m c =
      if (c.email, lowerString c.name) ∉ m then
        dictInsert m c.email (lowerString c.name)
      else m := rfl

theorem nodup_dictKeys_processCommit (m : AuthorMap) (c : Commit)
    (h : (dictKeys m).Nodup) : (dictKeys (processCommit m c)).Nodup := by
  rw [processCommit_def]
  split
  · exact nodup_dictKeys_dictInsert m c.email (lowerString c.name) h
  · exact h

theorem nodup_dictKeys_foldl_processCommit (cs : List Commit) (m : AuthorMap)
    (h : (dictKeys m).Nodup) : (dictKeys (cs.foldl processCommit m)).Nodup := by
  induction cs generalizing m with
  | nil => exact h
  | cons c cs ih => exact ih _ (nodup_dictKeys_processCommit m c h)

theorem nodup_dictKeys_collectAuthors (cs : List Commit) :
    (dictKeys (collectAuthors cs)).Nodup :=
  nodup_dictKeys_foldl_processCommit cs [] (by simp [dictKeys])

theorem commitLoop_map_ok (cs : List Commit) (m : AuthorMap) :
    commitLoop (cs.map Except.ok) m = Except.ok (cs.foldl processCommit m) := by
  induction cs generalizing m with
  | nil => rfl
  | cons c cs ih =>
    simp only [List.map_cons, commitLoop, List.foldl_cons]
    exact ih _

theorem commitLoop_error (ces : List (Except PyError Commit)) (m : AuthorMap)
    (h : ∃ e, Except.error e ∈ ces) :
    ∃ e2, commitLoop ces m = Except.error e2 := by
  induction ces generalizing m with
  | nil => simp at h
  | cons ce ces ih =>
    obtain ⟨e, he⟩ := h
    cases ce with
    | error e0 => exact ⟨e0, rfl⟩
    | ok c =>
      have : Except.error e ∈ ces := by
        rcases List.mem_cons.mp he with h1 | h1
        · exact absurd h1 (by simp)
        · exact h1
      exact ih _ ⟨e, this⟩

theorem processCommit_eq_dictInsert (m : AuthorMap) (c : Commit)
    (h : (dictKeys m).Nodup) :
    processCommit m c = dictInsert m c.email (lowerString c.name) := by
  rw [processCommit_def]
  split
  · rfl
  · next hmem =>
    rw [not_not] at hmem
    exact (dictInsert_of_mem m c.email (lowerString c.name) h hmem).symm

theorem lastNameFor_snoc_hit (cs : List Commit) (c : Commit) (e : String)
    (h : c.email = e) :
    lastNameFor (cs ++ [c]) e = some (lowerString c.name) := by
  unfold lastNameFor
  rw [List.filter_append]
  have hb : (c.email == e) = true := beq_iff_eq.mpr h
  have hfil : List.filter (fun c2 => c2.email == e) [c] = [c] := by
    simp [List.filter_cons, hb]
  rw [hfil, List.getLast?_concat]
  rfl

theorem lastNameFor_snoc_miss (cs : List Commit) (c : Commit) (e : String)
    (h : ¬ c.email = e) :
    lastNameFor (cs ++ [c]) e = lastNameFor cs e := by
  unfold lastNameFor
  rw [List.filter_append]
  have hb : (c.email == e) = false := beq_eq_false_iff_ne.mpr h
  have hfil : List.filter (fun c2 => c2.email == e) [c] = [] := by
    simp [List.filter_cons, hb]
  rw [hfil, List.append_nil]

theorem dictGet_collectAuthors_last (cs : List Commit) (e : String)
    (h : e ∈ cs.map Commit.email) :
    dictGet (collectAuthors cs) e = lastNameFor cs e := by
  induction cs using List.reverseRecOn with
  | nil => simp at h
  | append_singleton cs c ih =>
    rw [collectAuthors_snoc]
    by_cases he : c.email = e
    · rw [lastNameFor_snoc_hit cs c e he]
      rw [processCommit_def]
      split
      · next hnot =>
        rw [dictGet_dictInsert, he, if_pos rfl]
      · next hmem =>
        rw [not_not] at hmem
        rw [he] at hmem
        exact dictGet_of_mem _ _ _ (nodup_dictKeys_collectAuthors cs) hmem
    · rw [lastNameFor_snoc_miss cs c e he]
      have hin : e ∈ cs.map Commit.email := by
        rw [List.map_append] at h
        rcases List.mem_append.mp h with h1 | h1
        · exact h1
        · simp only [List.map_cons, List.map_nil, List.mem_singleton] at h1
          exact absurd h1.symm he
      rw [← ih hin]
      rw [processCommit_def]
      split
      · rw [dictGet_dictInsert]
        rw [if_neg (fun hc : e = c.email => he hc.symm)]
      · rfl

/-! ## Claims about the collector -/

theorem foldl_processCommit_eq_naive (cs : List Commit) (m : AuthorMap)
    (h : (dictKeys m).Nodup) :
    cs.foldl processCommit m =
      cs.foldl (fun m2 c => dictInsert m2 c.email (lowerString c.name)) m := by
  induction cs generalizing m with
  | nil => rfl
  | cons c cs ih =>
    simp only [List.foldl_cons]
    rw [processCommit_eq_dictInsert m c h]
    exact ih _ (nodup_dictKeys_dictInsert m c.email (lowerString c.name) h)

/-- C1: processing appends one commit at a time, in order; for each commit the
loop takes the lowercased author name `n` and the as-is email `e`, leaves the
mapping untouched when `(e, n)` is already an entry, and otherwise performs the
insert-or-overwrite `mapping[e] = n` — observably, the updated mapping answers
`e` with `some n` and answers every other key as before. -/
theorem c1_per_commit_step (cs : List Commit) (c : Commit) :
    (find_recent_contributors
        ⟨Except.ok (), (cs ++ [c]).map Except.ok⟩ =
      Except.ok (if (c.email, lowerString c.name) ∈ collectAuthors cs
        then collectAuthors cs
        else dictInsert (collectAuthors cs) c.email (lowerString c.name)))
    ∧ ∀ k, dictGet (collectAuthors (cs ++ [c])) k =
        if k = c.email then some (lowerString c.name) else dictGet (collectAuthors cs) k := by
  constructor
  · show commitLoop ((cs ++ [c]).map Except.ok) [] = _
    rw [commitLoop_map_ok]
    congr 1
    rw [List.foldl_append]
    show processCommit (collectAuthors cs) c = _
    by_cases hmem : (c.email, lowerString c.name) ∈ collectAuthors cs
    · simp [processCommit_def, hmem]
    · simp [processCommit_def, hmem]
  · intro k
    rw [collectAuthors_snoc, processCommit_def]
    by_cases hmem : (c.email, lowerString c.name) ∈ collectAuthors cs
    · rw [if_neg (not_not.mpr hmem)]
      by_cases hk : k = c.email
      · subst hk
        rw [if_pos rfl]
        exact dictGet_of_mem _ _ _ (nodup_dictKeys_collectAuthors cs) hmem
      · rw [if_neg hk]
    · rw [if_pos hmem, dictGet_dictInsert]

/-- Python dict building as C2's property describes it: for each commit in
order, unconditionally assign `mapping[author_email] = lowered author_name`.
This definition follows the claim's words, not the source, and is compared with
the source's collector. -/
def naiveCollect (cs : List Commit) : AuthorMap :=
  cs.foldl (fun m c => dictInsert m c.email (lowerString c.name)) []

/-- C2: the collector's pair-based duplicate check never changes the returned
mapping — on any commit list the collector returns exactly the naive
unconditional fold, because a skipped write would have been a no-op. -/
theorem c2_naive_fold_refinement (cs : List Commit) :
    find_recent_contributors ⟨Except.ok (), cs.map Except.ok⟩ =
      Except.ok (naiveCollect cs) := by
  show commitLoop (cs.map Except.ok) [] = _
  rw [commitLoop_map_ok]
  congr 1
  exact foldl_processCommit_eq_naive cs [] (by simp [dictKeys])

/-- C3: when one email occurs with two different lowercased names, the name the
returned mapping stores under that email is the lowercased name of the
later-seen (last) commit with that email; on
`[("a@x.com","Bob"), ("a@x.com","Alice")]` the collector returns
`{"a@x.com": "alice"}`. -/
theorem c3_last_write_wins (cs : List Commit) (e : String)
    (h : ∃ c1 ∈ cs, ∃ c2 ∈ cs, c1.email = e ∧ c2.email = e ∧
      lowerString c1.name ≠ lowerString c2.name) :
    dictGet (collectAuthors cs) e = lastNameFor cs e
    ∧ find_recent_contributors
        ⟨Except.ok (), [Except.ok ⟨"Bob", "a@x.com"⟩, Except.ok ⟨"Alice", "a@x.com"⟩]⟩ =
      Except.ok [("a@x.com", "alice")] := by
  obtain ⟨c1, hc1, c2, hc2, he1, he2, hne⟩ := h
  refine ⟨dictGet_collectAuthors_last cs e (List.mem_map.mpr ⟨c1, hc1, he1⟩), by decide⟩

theorem c3_last_write_wins_witness :
    (∃ c1 ∈ [Commit.mk "Bob" "a@x.com", Commit.mk "Alice" "a@x.com"],
      ∃ c2 ∈ [Commit.mk "Bob" "a@x.com", Commit.mk "Alice" "a@x.com"],
        c1.email = "a@x.com" ∧ c2.email = "a@x.com" ∧
          lowerString c1.name ≠ lowerString c2.name)
    ∧ (dictGet (collectAuthors [Commit.mk "Bob" "a@x.com", Commit.mk "Alice" "a@x.com"])
          "a@x.com" =
        lastNameFor [Commit.mk "Bob" "a@x.com", Commit.mk "Alice" "a@x.com"] "a@x.com"
      ∧ find_recent_contributors
          ⟨Except.ok (), [Except.ok ⟨"Bob", "a@x.com"⟩, Except.ok ⟨"Alice", "a@x.com"⟩]⟩ =
        Except.ok [("a@x.com", "alice")]) :=
  ⟨by decide, c3_last_write_wins _ "a@x.com" (by decide)⟩

/-- C4: when the commit-count probe raises (the empty/inaccessible-repository
condition), the collector returns the empty mapping and no error propagates to
the caller, whatever the commit listing would have held. -/
theorem c4_empty_repo_probe (e : GithubException)
    (commits : List (Except PyError Commit)) :
    find_recent_contributors ⟨Except.error e, commits⟩ = Except.ok [] := rfl

/-- C9: an error raised while extracting an author from some commit of the
listing is not caught by the collector — the collector's result is an error
propagating to the caller. -/
theorem c9_commit_error_propagates (repository : RepoHandle)
    (hprobe : repository.probe = Except.ok ())
    (herr : ∃ e, Except.error e ∈ repository.commits) :
    ∃ e2, find_recent_contributors repository = Except.error e2 := by
  obtain ⟨probe, commits⟩ := repository
  simp only at hprobe herr
  subst hprobe
  exact commitLoop_error commits [] herr

theorem c9_commit_error_propagates_witness :
    (RepoHandle.mk (Except.ok ()) [Except.error PyError.attributeError]).probe =
        Except.ok ()
    ∧ (∃ e, Except.error e ∈
        (RepoHandle.mk (Except.ok ()) [Except.error PyError.attributeError]).commits)
    ∧ ∃ e2, find_recent_contributors
        (RepoHandle.mk (Except.ok ()) [Except.error PyError.attributeError]) =
          Except.error e2 :=
  ⟨rfl, ⟨PyError.attributeError, List.mem_singleton.mpr rfl⟩,
    c9_commit_error_propagates _ rfl ⟨PyError.attributeError, List.mem_singleton.mpr rfl⟩⟩

/-! ## Claims about the time-window calculator -/

/-- C6, counterexample: at `days = 0` the returned timestamp equals the clock
value `datetime.today()` produced — it is not strictly less than the time of
the call, refuting the claim's strict inequality for every `days ≥ 0`. -/
theorem c6_counterexample : since_datetime 0 0 = 0 ∧ ¬ since_datetime 0 0 < 0 := by
  decide

/-- C6, amended: for `days ≥ 0` the result is at most the clock value `now`,
strictly below it exactly when `days ≥ 1`, and the delta from `now` is exactly
`days × 24h` (the isoformat round-trip is lossless, so the tolerance is zero);
the timestamp stays timezone-naive by construction. -/
theorem c6_since_datetime_amended (now days : Int) (h : 0 ≤ days) :
    since_datetime now days ≤ now
    ∧ (1 ≤ days → since_datetime now days < now)
    ∧ now - since_datetime now days = days * microsecondsPerDay := by
  unfold since_datetime datetime_fromisoformat datetime_isoformat microsecondsPerDay
  refine ⟨?_, ?_, by ring⟩
  · have hmul : 0 ≤ days * 86400000000 := mul_nonneg h (by norm_num)
    linarith
  · intro h1
    have hmul : (1 : Int) * 86400000000 ≤ days * 86400000000 :=
      mul_le_mul_of_nonneg_right h1 (by norm_num)
    linarith

theorem c6_since_datetime_amended_witness :
    (0 : Int) ≤ 1
    ∧ (since_datetime 0 1 ≤ 0
      ∧ ((1 : Int) ≤ 1 → since_datetime 0 1 < 0)
      ∧ (0 : Int) - since_datetime 0 1 = 1 * microsecondsPerDay) :=
  ⟨by decide, c6_since_datetime_amended 0 1 (by decide)⟩

/-! ## Claims about the orchestrator -/

/-- C7, counterexample: with no repository list the run ends via `sys.exit()`
with no argument, i.e. with exit status `0` — there is no nonzero-style exit,
refuting that part of the claim at a concrete invocation. -/
theorem c7_counterexample :
    ¬ ∃ r, Contributors.main demoOracle ORG_NAME none = Except.ok r ∧ r.exitCode ≠ 0 := by
  rintro ⟨r, hr, hc⟩
  have h0 : (Except.ok r : Except PyError RunResult) = Except.ok ⟨none, 0⟩ :=
    hr.symm.trans rfl
  have h1 := Except.ok.inj h0
  rw [h1] at hc
  exact hc rfl

/-- C7, amended: if no repository list is provided, `main` logs the usage error
and terminates immediately with no JSON output and no repository processing
whatsoever (the result is the same for every GitHub client), via `sys.exit()`
with no argument — an early exit whose status is `0`, not nonzero. -/
theorem c7_usage_error_amended (github : GithubOracle) (org : String) :
    Contributors.main github org none = Except.ok { output := none, exitCode := 0 } := rfl

theorem repoLoop_counts_ne_nil (github : GithubOracle) (org : String)
    (rs : List String) (counts : Dict Nat) (all : AuthorMap)
    (res : Dict Nat × AuthorMap)
    (h : repoLoop github org rs counts all = Except.ok res) :
    res.1 ≠ [] ↔
      counts ≠ [] ∨ ∃ r ∈ rs, ∃ handle, github (org ++ "/" ++ r) = Except.ok handle := by
  induction rs generalizing counts all with
  | nil =>
    simp only [repoLoop, Except.ok.injEq] at h
    subst h
    simp
  | cons r rs ih =>
    simp only [repoLoop] at h
    cases hg : github (org ++ "/" ++ r) with
    | error ex =>
      rw [hg] at h
      simp only at h
      rw [ih _ _ h]
      have hfalse : ¬ ∃ handle, github (org ++ "/" ++ r) = Except.ok handle := by
        rw [hg]
        rintro ⟨handle, hh⟩
        exact Except.noConfusion hh
      simp only [List.mem_cons]
      constructor
      · rintro (hc | ⟨r2, hr2, handle, hh⟩)
        · exact Or.inl hc
        · exact Or.inr ⟨r2, Or.inr hr2, handle, hh⟩
      · rintro (hc | ⟨r2, hr2 | hr2, handle, hh⟩)
        · exact Or.inl hc
        · exact absurd ⟨handle, hr2 ▸ hh⟩ hfalse
        · exact Or.inr ⟨r2, hr2, handle, hh⟩
    | ok handle =>
      rw [hg] at h
      simp only at h
      cases hf : find_recent_contributors handle with
      | error e =>
        rw [hf] at h
        exact Except.noConfusion h
      | ok m =>
        rw [hf] at h
        simp only at h
        rw [ih _ _ h]
        constructor
        · intro _
          exact Or.inr ⟨r, List.mem_cons_self r rs, handle, hg⟩
        · intro _
          exact Or.inl (dictInsert_ne_nil counts r m.length)

/-- C8: a completed run over a given repository list prints the JSON report if
and only if at least one repository lookup succeeded (even one contributing
zero contributors); when every lookup fails, no JSON is printed. -/
theorem c8_output_iff_success (github : GithubOracle) (org s : String)
    (res : RunResult)
    (h : Contributors.main github org (some s) = Except.ok res) :
    res.output.isSome = true ↔
      ∃ r ∈ pySplit s ',', ∃ handle, github (org ++ "/" ++ r) = Except.ok handle := by
  unfold Contributors.main at h
  simp only at h
  cases hl : repoLoop github org (pySplit s ',') [] [] with
  | error e =>
    rw [hl] at h
    exact Except.noConfusion h
  | ok pr =>
    obtain ⟨counts, all⟩ := pr
    rw [hl] at h
    simp only at h
    have hkey := repoLoop_counts_ne_nil github org (pySplit s ',') [] [] (counts, all) hl
    simp only [ne_eq, not_true_eq_false, false_or] at hkey
    by_cases hc : counts.isEmpty
    · rw [if_pos hc] at h
      have hres : res = ⟨none, 0⟩ := (Except.ok.inj h).symm
      subst hres
      simp only [Option.isSome_none, Bool.false_eq_true, false_iff]
      intro hex
      have : counts ≠ [] := hkey.mpr hex
      exact this (List.isEmpty_iff.mp hc)
    · rw [if_neg hc] at h
      have hres : res = ⟨some (reportOf (counts, all)), 0⟩ := (Except.ok.inj h).symm
      subst hres
      simp only [Option.isSome_some, true_iff]
      refine hkey.mp ?_
      intro hnil
      exact hc (hnil ▸ rfl)

theorem c8_output_iff_success_witness :
    (Contributors.main demoOracle "bradleyfrank" (some "r1") =
      Except.ok ⟨some ⟨[("r1", 1)], [("a@x.com", "bob")], 1⟩, 0⟩)
    ∧ ((RunResult.mk (some ⟨[("r1", 1)], [("a@x.com", "bob")], 1⟩) 0).output.isSome = true ↔
        ∃ r ∈ pySplit "r1" ',', ∃ handle,
          demoOracle ("bradleyfrank" ++ "/" ++ r) = Except.ok handle) :=
  ⟨rfl, c8_output_iff_success demoOracle "bradleyfrank" "r1" _ rfl⟩

/-! ## Sorting lemmas -/

theorem charLt_iff (a b : Char) : a.toNat < b.toNat ↔ a < b := Iff.rfl

theorem char_eq_of_not_lt (a b : Char) (h1 : ¬ a.toNat < b.toNat)
    (h2 : ¬ b.toNat < a.toNat) : a = b := by
  rcases lt_trichotomy a b with h | h | h
  · exact absurd ((charLt_iff a b).mpr h) h1
  · exact h
  · exact absurd ((charLt_iff b a).mpr h) h2

theorem pyStrLtAux_iff (as bs : List Char) : pyStrLtAux as bs = true ↔ as < bs := by
  induction as generalizing bs with
  | nil =>
    cases bs with
    | nil =>
      simp only [pyStrLtAux]
      constructor
      · intro h
        simp at h
      · intro h
        cases h
    | cons b bs =>
      simp only [pyStrLtAux, true_iff]
      exact List.Lex.nil
  | cons a as ih =>
    cases bs with
    | nil =>
      simp only [pyStrLtAux]
      constructor
      · intro h
        simp at h
      · intro h
        cases h
    | cons b bs =>
      simp only [pyStrLtAux]
      by_cases h1 : a.toNat < b.toNat
      · simp only [if_pos h1, true_iff]
        exact List.Lex.rel ((charLt_iff a b).mp h1)
      · by_cases h2 : b.toNat < a.toNat
        · simp only [if_neg h1, if_pos h2]
          constructor
          · intro h
            simp at h
          · intro h
            cases h with
            | rel hab => exact absurd ((charLt_iff a b).mpr hab) h1
            | cons h3 => exact absurd h2 (by omega)
        · have hab : a = b := char_eq_of_not_lt a b h1 h2
          subst hab
          simp only [if_neg h1, if_neg h2]
          rw [ih bs]
          constructor
          · intro h
            exact List.Lex.cons h
          · intro h
            cases h with
            | rel hcontra => exact absurd ((charLt_iff a a).mpr hcontra) h1
            | cons h3 => exact h3

theorem pyStrLt_iff (a b : String) : pyStrLt a b = true ↔ a < b := by
  rw [String.lt_iff_toList_lt]
  exact pyStrLtAux_iff a.data b.data

theorem insertPair_perm (p : String × String) (l : Dict String) :
    (insertPair p l).Perm (p :: l) := by
  induction l with
  | nil => exact List.Perm.refl _
  | cons q qs ih =>
    simp only [insertPair]
    split
    · exact (ih.cons q).trans (List.Perm.swap p q qs)
    · exact List.Perm.refl _

theorem sortDict_perm (d : Dict String) : (sortDict d).Perm d := by
  induction d with
  | nil => exact List.Perm.refl _
  | cons p d ih =>
    show (insertPair p (sortDict d)).Perm (p :: d)
    exact (insertPair_perm p (sortDict d)).trans (ih.cons p)

theorem sortDict_length (d : Dict String) : (sortDict d).length = d.length :=
  (sortDict_perm d).length_eq

theorem insertPair_sorted (p : String × String) (l : Dict String)
    (h : l.Pairwise (fun a b : String × String => a.1 ≤ b.1)) :
    (insertPair p l).Pairwise (fun a b : String × String => a.1 ≤ b.1) := by
  induction l with
  | nil => simp [insertPair]
  | cons q qs ih =>
    rw [List.pairwise_cons] at h
    simp only [insertPair]
    by_cases hlt : pyStrLt q.1 p.1 = true
    · rw [if_pos hlt, List.pairwise_cons]
      constructor
      · intro x hx
        rcases List.mem_cons.mp ((insertPair_perm p qs).mem_iff.mp hx) with hx1 | hx1
        · subst hx1
          exact le_of_lt ((pyStrLt_iff q.1 x.1).mp hlt)
        · exact h.1 x hx1
      · exact ih h.2
    · rw [if_neg hlt, List.pairwise_cons]
      have hqp : p.1 ≤ q.1 := by
        have hn : ¬ q.1 < p.1 := fun hc => hlt ((pyStrLt_iff q.1 p.1).mpr hc)
        exact not_lt.mp hn
      constructor
      · intro x hx
        rcases List.mem_cons.mp hx with hx1 | hx1
        · exact hx1 ▸ hqp
        · exact le_trans hqp (h.1 x hx1)
      · rw [List.pairwise_cons]
        exact h

theorem sortDict_sorted (d : Dict String) :
    (sortDict d).Pairwise (fun a b : String × String => a.1 ≤ b.1) := by
  induction d with
  | nil => simp [sortDict]
  | cons p d ih =>
    show (insertPair p (sortDict d)).Pairwise (fun a b : String × String => a.1 ≤ b.1)
    exact insertPair_sorted p (sortDict d) ih

theorem sortDict_pairwise_lt (d : Dict String) (h : (dictKeys d).Nodup) :
    (sortDict d).Pairwise (fun a b : String × String => a.1 < b.1) := by
  have hs := sortDict_sorted d
  have hnd : (dictKeys (sortDict d)).Nodup :=
    (((sortDict_perm d).map Prod.fst).nodup_iff).mpr h
  have hne : (sortDict d).Pairwise (fun a b : String × String => a.1 ≠ b.1) :=
    List.pairwise_map.mp hnd
  exact (hs.and hne).imp (fun h2 => lt_of_le_of_ne h2.1 h2.2)

/-! ## Aggregation lemmas -/

theorem pairwise_imp_mem {α : Type} {R S : α → α → Prop} :
    ∀ (l : List α), (∀ a b, a ∈ l → b ∈ l → R a b → S a b) →
      l.Pairwise R → l.Pairwise S := by
  intro l
  induction l with
  | nil =>
    intro _ _
    exact List.Pairwise.nil
  | cons x xs ih =>
    intro H hp
    rw [List.pairwise_cons] at hp
    rw [List.pairwise_cons]
    refine ⟨fun b hb => H x b (List.mem_cons_self x xs) (List.mem_cons_of_mem _ hb) (hp.1 b hb), ?_⟩
    exact ih (fun a b ha hb => H a b (List.mem_cons_of_mem _ ha) (List.mem_cons_of_mem _ hb)) hp.2

theorem optOr_none_right {α : Type} (a : Option α) : optOr a none = a := by
  cases a <;> rfl

theorem getLast?_cons_optOr {α : Type} (a : α) (l : List α) :
    (a :: l).getLast? = optOr l.getLast? (some a) := by
  induction l generalizing a with
  | nil => rfl
  | cons b bs ih =>
    rw [List.getLast?_cons_cons, ih b, optOr_assoc, optOr_some]

theorem foldl_aggStep_snd (ps : List (String × AuthorMap)) (acc : Dict Nat × AuthorMap) :
    (ps.foldl aggStep acc).2 = ps.foldl (fun d p => dictUpdate d p.2) acc.2 := by
  induction ps generalizing acc with
  | nil => rfl
  | cons p ps ih =>
    simp only [List.foldl_cons]
    rw [ih]
    rfl

theorem foldl_aggStep_fst (ps : List (String × AuthorMap)) (acc : Dict Nat × AuthorMap)
    (hnames : (ps.map Prod.fst).Nodup)
    (hfresh : ∀ p ∈ ps, p.1 ∉ dictKeys acc.1) :
    (ps.foldl aggStep acc).1 = acc.1 ++ ps.map (fun p => (p.1, p.2.length)) := by
  induction ps generalizing acc with
  | nil => simp
  | cons p ps ih =>
    simp only [List.map_cons, List.nodup_cons] at hnames
    have hp : p.1 ∉ dictKeys acc.1 := hfresh p (List.mem_cons_self p ps)
    have hstep : (aggStep acc p).1 = acc.1 ++ [(p.1, p.2.length)] := by
      show dictInsert acc.1 p.1 p.2.length = _
      exact dictInsert_of_not_mem_keys _ _ _ hp
    have hfresh2 : ∀ q ∈ ps, q.1 ∉ dictKeys (aggStep acc p).1 := by
      intro q hq
      rw [hstep]
      unfold dictKeys
      rw [List.map_append, List.mem_append]
      rintro (hk | hk)
      · exact hfresh q (List.mem_cons_of_mem _ hq) hk
      · simp only [List.map_cons, List.map_nil, List.mem_singleton] at hk
        exact hnames.1 (hk ▸ List.mem_map.mpr ⟨q, hq, rfl⟩)
    simp only [List.foldl_cons]
    rw [ih (aggStep acc p) hnames.2 hfresh2, hstep, List.append_assoc, List.singleton_append,
      List.map_cons]

theorem aggregate_fst (ps : List (String × AuthorMap))
    (hnames : (ps.map Prod.fst).Nodup) :
    (aggregate ps).1 = ps.map (fun p => (p.1, p.2.length)) := by
  unfold aggregate
  rw [foldl_aggStep_fst ps ([], []) hnames (by simp [dictKeys])]
  rfl

theorem aggregate_snd (ps : List (String × AuthorMap)) :
    (aggregate ps).2 = ps.foldl (fun d p => dictUpdate d p.2) [] :=
  foldl_aggStep_snd ps ([], [])

theorem dictKeys_map_count (ps : List (String × AuthorMap)) :
    dictKeys (ps.map (fun p => (p.1, p.2.length))) = ps.map Prod.fst := by
  unfold dictKeys
  rw [List.map_map]
  rfl

theorem aggregate_counts_get (ps : List (String × AuthorMap))
    (hnames : (ps.map Prod.fst).Nodup) (p : String × AuthorMap) (hp : p ∈ ps) :
    dictGet (aggregate ps).1 p.1 = some p.2.length := by
  rw [aggregate_fst ps hnames]
  refine dictGet_of_mem _ _ _ ?_ (List.mem_map.mpr ⟨p, hp, rfl⟩)
  rw [dictKeys_map_count]
  exact hnames

theorem foldl_update_get (ps : List (String × AuthorMap)) (d : AuthorMap) (e : String)
    (hkeys : ∀ p ∈ ps, (dictKeys p.2).Nodup) :
    dictGet (ps.foldl (fun d2 p => dictUpdate d2 p.2) d) e =
      optOr ((ps.filterMap (fun p => dictGet p.2 e)).getLast?) (dictGet d e) := by
  induction ps generalizing d with
  | nil => rfl
  | cons p ps ih =>
    have hp := hkeys p (List.mem_cons_self p ps)
    have hrest : ∀ q ∈ ps, (dictKeys q.2).Nodup :=
      fun q hq => hkeys q (List.mem_cons_of_mem _ hq)
    simp only [List.foldl_cons, List.filterMap_cons]
    rw [ih _ hrest, dictGet_dictUpdate d p.2 e hp]
    cases hg : dictGet p.2 e with
    | none => rw [optOr_none]
    | some v => rw [getLast?_cons_optOr, optOr_assoc, optOr_some]

theorem aggregate_merged_get (ps : List (String × AuthorMap)) (e : String)
    (hkeys : ∀ p ∈ ps, (dictKeys p.2).Nodup) :
    dictGet (aggregate ps).2 e = (ps.filterMap (fun p => dictGet p.2 e)).getLast? := by
  rw [aggregate_snd, foldl_update_get ps [] e hkeys]
  show optOr _ none = _
  rw [optOr_none_right]

theorem nodup_keys_foldl_update (ps : List (String × AuthorMap)) (d : AuthorMap)
    (h : (dictKeys d).Nodup) :
    (dictKeys (ps.foldl (fun d2 p => dictUpdate d2 p.2) d)).Nodup := by
  induction ps generalizing d with
  | nil => exact h
  | cons p ps ih =>
    simp only [List.foldl_cons]
    exact ih _ (nodup_dictKeys_dictUpdate d p.2 h)

theorem nodup_keys_aggregate_snd (ps : List (String × AuthorMap)) :
    (dictKeys (aggregate ps).2).Nodup := by
  rw [aggregate_snd]
  exact nodup_keys_foldl_update ps [] (by simp [dictKeys])

/-- Per-repository contributor mappings of the worked example: `r1` maps Bob's
email, `r2` maps Bob's and Carol's. -/
def demoPairs : List (String × AuthorMap) :=
  [("r1", [("a@x.com", "bob")]), ("r2", [("a@x.com", "bob"), ("c@y.com", "carol")])]

/-- C5: aggregating per-repository mappings, every repository's reported count
is the length of its own mapping; the merged mapping answers each email with the
last processed mapping binding it (later repositories overwrite earlier ones);
`num_unique_contributors` is the size of the merged mapping; the output
`contributors` keys are in strictly ascending order; and the two-repository
worked example produces exactly the documented report through `main`. -/
theorem c5_aggregation (ps : List (String × AuthorMap))
    (hnames : (ps.map Prod.fst).Nodup)
    (hkeys : ∀ p ∈ ps, (dictKeys p.2).Nodup) :
    (∀ p ∈ ps, dictGet (aggregate ps).1 p.1 = some p.2.length)
    ∧ (∀ e, dictGet (aggregate ps).2 e =
        (ps.filterMap (fun p => dictGet p.2 e)).getLast?)
    ∧ (reportOf (aggregate ps)).num_unique_contributors = (aggregate ps).2.length
    ∧ (reportOf (aggregate ps)).contributors.Pairwise
        (fun a b : String × String => a.1 < b.1)
    ∧ Contributors.main demoOracle "bradleyfrank" (some "r1,r2") =
        Except.ok ⟨some ⟨[("r1", 1), ("r2", 2)],
          [("a@x.com", "bob"), ("c@y.com", "carol")], 2⟩, 0⟩ := by
  refine ⟨fun p hp => aggregate_counts_get ps hnames p hp,
    fun e => aggregate_merged_get ps e hkeys, ?_, ?_, rfl⟩
  · show (sortDict (aggregate ps).2).length = _
    exact sortDict_length _
  · show (sortDict (aggregate ps).2).Pairwise _
    exact sortDict_pairwise_lt _ (nodup_keys_aggregate_snd ps)

theorem c5_aggregation_witness :
    ((demoPairs.map Prod.fst).Nodup ∧ ∀ p ∈ demoPairs, (dictKeys p.2).Nodup)
    ∧ ((∀ p ∈ demoPairs, dictGet (aggregate demoPairs).1 p.1 = some p.2.length)
      ∧ (∀ e, dictGet (aggregate demoPairs).2 e =
          (demoPairs.filterMap (fun p => dictGet p.2 e)).getLast?)
      ∧ (reportOf (aggregate demoPairs)).num_unique_contributors =
          (aggregate demoPairs).2.length
      ∧ (reportOf (aggregate demoPairs)).contributors.Pairwise
          (fun a b : String × String => a.1 < b.1)
      ∧ Contributors.main demoOracle "bradleyfrank" (some "r1,r2") =
          Except.ok ⟨some ⟨[("r1", 1), ("r2", 2)],
            [("a@x.com", "bob"), ("c@y.com", "carol")], 2⟩, 0⟩) :=
  ⟨⟨by decide, by decide⟩, c5_aggregation demoPairs (by decide) (by decide)⟩

theorem foldl_update_length_bound (ps : List (String × AuthorMap)) (d : AuthorMap)
    (hkeys : ∀ p ∈ ps, (dictKeys p.2).Nodup) :
    (ps.foldl (fun d2 p => dictUpdate d2 p.2) d).length
        ≤ d.length + (ps.map (fun p => p.2.length)).sum
    ∧ ((ps.foldl (fun d2 p => dictUpdate d2 p.2) d).length
          = d.length + (ps.map (fun p => p.2.length)).sum ↔
        ps.Pairwise (fun p q => ∀ x ∈ dictKeys p.2, x ∉ dictKeys q.2)
        ∧ ∀ p ∈ ps, ∀ x ∈ dictKeys p.2, x ∉ dictKeys d) := by
  induction ps generalizing d with
  | nil => simp
  | cons p ps ih =>
    have hp := hkeys p (List.mem_cons_self p ps)
    have hrest : ∀ q ∈ ps, (dictKeys q.2).Nodup :=
      fun q hq => hkeys q (List.mem_cons_of_mem _ hq)
    have ihd := ih (dictUpdate d p.2) hrest
    have hle1 := length_dictUpdate_le d p.2
    have heq1 := length_dictUpdate_eq_iff d p.2 hp
    simp only [List.foldl_cons, List.map_cons, List.sum_cons]
    have hle0 := ihd.1
    refine ⟨by omega, ?_⟩
    constructor
    · intro heq
      have hA : (ps.foldl (fun d2 p => dictUpdate d2 p.2) (dictUpdate d p.2)).length
          = (dictUpdate d p.2).length + (ps.map (fun p => p.2.length)).sum := by
        omega
      have hB : (dictUpdate d p.2).length = d.length + p.2.length := by
        omega
      obtain ⟨hpw, hfr⟩ := ihd.2.mp hA
      have hfrp := heq1.mp hB
      refine ⟨?_, ?_⟩
      · rw [List.pairwise_cons]
        refine ⟨?_, hpw⟩
        intro q hq x hxp hxq
        exact hfr q hq x hxq ((mem_dictKeys_dictUpdate d p.2 x).mpr (Or.inr hxp))
      · intro q hq x hxq
        rcases List.mem_cons.mp hq with h1 | h1
        · subst h1
          exact hfrp x hxq
        · intro hxd
          exact hfr q h1 x hxq ((mem_dictKeys_dictUpdate d p.2 x).mpr (Or.inl hxd))
    · rintro ⟨hpw, hfr⟩
      rw [List.pairwise_cons] at hpw
      have hfrp : ∀ x ∈ dictKeys p.2, x ∉ dictKeys d :=
        fun x hx => hfr p (List.mem_cons_self p ps) x hx
      have hB := heq1.mpr hfrp
      have hfr2 : ∀ q ∈ ps, ∀ x ∈ dictKeys q.2, x ∉ dictKeys (dictUpdate d p.2) := by
        intro q hq x hxq hxd2
        rcases (mem_dictKeys_dictUpdate d p.2 x).mp hxd2 with h1 | h1
        · exact hfr q (List.mem_cons_of_mem _ hq) x hxq h1
        · exact hpw.1 q hq x h1 hxq
      have hA := ihd.2.mpr ⟨hpw.2, hfr2⟩
      omega

/-- C10: `num_unique_contributors` never exceeds the sum of the per-repository
counts reported in the `repositories` map, and equals it exactly when no email
occurs in the mappings of two different repositories. -/
theorem c10_unique_le_sum (ps : List (String × AuthorMap))
    (hnames : (ps.map Prod.fst).Nodup)
    (hkeys : ∀ p ∈ ps, (dictKeys p.2).Nodup) :
    (reportOf (aggregate ps)).num_unique_contributors ≤
      ((aggregate ps).1.map Prod.snd).sum
    ∧ ((reportOf (aggregate ps)).num_unique_contributors =
          ((aggregate ps).1.map Prod.snd).sum ↔
        ¬ ∃ p, p ∈ ps ∧ ∃ q, q ∈ ps ∧ p.1 ≠ q.1 ∧
          ∃ e, e ∈ dictKeys p.2 ∧ e ∈ dictKeys q.2) := by
  have hsum : ((aggregate ps).1.map Prod.snd).sum =
      (ps.map (fun p => p.2.length)).sum := by
    rw [aggregate_fst ps hnames, List.map_map]
    rfl
  have hnum : (reportOf (aggregate ps)).num_unique_contributors =
      (aggregate ps).2.length := sortDict_length _
  have hbound := foldl_update_length_bound ps [] hkeys
  rw [← aggregate_snd] at hbound
  simp only [List.length_nil, Nat.zero_add, dictKeys, List.map_nil,
    List.not_mem_nil, not_false_iff, implies_true, and_true] at hbound
  have hpair_iff : ps.Pairwise
      (fun p q => ∀ x ∈ List.map Prod.fst p.2, x ∉ List.map Prod.fst q.2) ↔
      ¬ ∃ p, p ∈ ps ∧ ∃ q, q ∈ ps ∧ p.1 ≠ q.1 ∧
        ∃ e, e ∈ dictKeys p.2 ∧ e ∈ dictKeys q.2 := by
    constructor
    · rintro hpw ⟨p, hp, q, hq, hne, e, hep, heq⟩
      have hsym : Symmetric
          (fun p q : String × AuthorMap =>
            ∀ x ∈ List.map Prod.fst p.2, x ∉ List.map Prod.fst q.2) := by
        intro a b h x hxb hxa
        exact h x hxa hxb
      have hne2 : p ≠ q := fun hc => hne (congrArg Prod.fst hc)
      exact hpw.forall hsym hp hq hne2 e hep heq
    · intro hnc
      have hnepw : ps.Pairwise (fun p q => p.1 ≠ q.1) := List.pairwise_map.mp hnames
      refine pairwise_imp_mem ps ?_ hnepw
      intro a b ha hb hab x hxa hxb
      exact hnc ⟨a, ha, b, hb, hab, x, hxa, hxb⟩
  constructor
  · rw [hnum, hsum]
    exact hbound.1
  · rw [hnum, hsum, hbound.2, hpair_iff]

theorem c10_unique_le_sum_witness :
    ((demoPairs.map Prod.fst).Nodup ∧ ∀ p ∈ demoPairs, (dictKeys p.2).Nodup)
    ∧ ((reportOf (aggregate demoPairs)).num_unique_contributors ≤
        ((aggregate demoPairs).1.map Prod.snd).sum
      ∧ ((reportOf (aggregate demoPairs)).num_unique_contributors =
            ((aggregate demoPairs).1.map Prod.snd).sum ↔
          ¬ ∃ p, p ∈ demoPairs ∧ ∃ q, q ∈ demoPairs ∧ p.1 ≠ q.1 ∧
            ∃ e, e ∈ dictKeys p.2 ∧ e ∈ dictKeys q.2)) :=
  ⟨⟨by decide, by decide⟩, c10_unique_le_sum demoPairs (by decide) (by decide)⟩

theorem repoLoop_eq_aggregate (github : GithubOracle) (org : String)
    (rs : List String) (counts : Dict Nat) (all : AuthorMap)
    (res : Dict Nat × AuthorMap)
    (h : repoLoop github org rs counts all = Except.ok res) :
    res = (successResults github org rs).foldl aggStep (counts, all) := by
  induction rs generalizing counts all with
  | nil =>
    simp only [repoLoop, Except.ok.injEq] at h
    simp only [successResults, List.filterMap_nil, List.foldl_nil]
    exact h.symm
  | cons r rs ih =>
    simp only [repoLoop] at h
    cases hg : github (org ++ "/" ++ r) with
    | error ex =>
      rw [hg] at h
      simp only at h
      have hs : successResults github org (r :: rs) = successResults github org rs := by
        simp only [successResults, List.filterMap_cons, hg]
      rw [hs]
      exact ih _ _ h
    | ok handle =>
      rw [hg] at h
      simp only at h
      cases hf : find_recent_contributors handle with
      | error e =>
        rw [hf] at h
        exact Except.noConfusion h
      | ok m =>
        rw [hf] at h
        simp only at h
        have hs : successResults github org (r :: rs) =
            (r, m) :: successResults github org rs := by
          simp only [successResults, List.filterMap_cons, hg, hf]
        rw [hs, List.foldl_cons]
        exact ih _ _ h

theorem main_report_eq_aggregate (github : GithubOracle) (org s : String)
    (res : RunResult) (rep : Report)
    (h : Contributors.main github org (some s) = Except.ok res)
    (hrep : res.output = some rep) :
    rep = reportOf ((successResults github org (pySplit s ',')).foldl aggStep ([], [])) := by
  unfold Contributors.main at h
  simp only at h
  cases hl : repoLoop github org (pySplit s ',') [] [] with
  | error e =>
    rw [hl] at h
    exact Except.noConfusion h
  | ok pr =>
    obtain ⟨counts, all⟩ := pr
    rw [hl] at h
    simp only at h
    have hagg := repoLoop_eq_aggregate github org (pySplit s ',') [] [] (counts, all) hl
    by_cases hc : counts.isEmpty
    · rw [if_pos hc] at h
      have hres : res = ⟨none, 0⟩ := (Except.ok.inj h).symm
      rw [hres] at hrep
      exact Option.noConfusion hrep
    · rw [if_neg hc] at h
      have hres : res = ⟨some (reportOf (counts, all)), 0⟩ := (Except.ok.inj h).symm
      rw [hres] at hrep
      have : rep = reportOf (counts, all) := (Option.some.inj hrep).symm
      rw [this, ← hagg]
